import Mathlib

/-!
# A proof-of-work chain in C: `blockchain.c`

A shallow embedding of `src/blockchain.c` and theorems about it.

Conventions of the embedding.

* A byte (`char`, `unsigned char`) is a `Nat` below 256; a byte array is a `List Nat`.
* `int` and `time_t` values are integers (`Int`). The arithmetic of `block_sa` on its
  `int` variable `diff` is that of a 32-bit two's complement `int` (`wrap32`): the sum
  is narrowed to `int` at every step and the product `diff * accuracy` is an `int`.
  The steps `index + 1` and `difficulty ± 1` are on unbounded integers: they leave the
  range of `int` only after `2 ^ 31` blocks or at a difficulty of `INT_MAX`.
* A value of type `block` is a `block *`: either `NULL` or the block it points to, whose
  `parent` field is again such a pointer.
* A function that would dereference `NULL`, read or write outside the memory the model
  describes (past the end of an array, past a `malloc`ed buffer) returns `none`.
* `malloc` returns memory whose content is not determined by the program. The content
  of the buffer `block_gen_sha256` allocates is the parameter `heap`: `heap i` is the
  byte the fresh buffer holds at offset `i`.
* `SHA256` is the library function of OpenSSL, written out after FIPS 180-4.
-/

namespace EduChain

/-! ## SHA-256 (FIPS 180-4), the library function the program calls -/

/-- The 64 round constants of SHA-256 (`428a2f98 … c67178f2`), in decimal. -/
def K256 : List Nat :=
  [1116352408, 1899447441, 3049323471, 3921009573, 961987163, 1508970993, 2453635748, 2870763221,
   3624381080, 310598401, 607225278, 1426881987, 1925078388, 2162078206, 2614888103, 3248222580,
   3835390401, 4022224774, 264347078, 604807628, 770255983, 1249150122, 1555081692, 1996064986,
   2554220882, 2821834349, 2952996808, 3210313671, 3336571891, 3584528711, 113926993, 338241895,
   666307205, 773529912, 1294757372, 1396182291, 1695183700, 1986661051, 2177026350, 2456956037,
   2730485921, 2820302411, 3259730800, 3345764771, 3516065817, 3600352804, 4094571909, 275423344,
   430227734, 506948616, 659060556, 883997877, 958139571, 1322822218, 1537002063, 1747873779,
   1955562222, 2024104815, 2227730452, 2361852424, 2428436474, 2756734187, 3204031479, 3329325298]

/-- The initial hash value of SHA-256 (`6a09e667 … 5be0cd19`), in decimal. -/
def H256 : List Nat :=
  [1779033703, 3144134277, 1013904242, 2773480762, 1359893119, 2600822924, 528734635, 1541459225]

/-- Rotate the 32-bit word `x` right by `n` bits. -/
def rotr32 (x n : Nat) : Nat := (x >>> n) ||| ((x <<< (32 - n)) % 4294967296)

/-- Addition modulo `2 ^ 32`. -/
def add32 (x y : Nat) : Nat := (x + y) % 4294967296

/-- Bitwise complement of a 32-bit word. -/
def not32 (x : Nat) : Nat := 4294967295 - x

/-- One word of the message schedule from the words 2, 7, 15 and 16 places back. -/
def sched (w2 w7 w15 w16 : Nat) : Nat :=
  add32 (add32 ((rotr32 w2 17) ^^^ (rotr32 w2 19) ^^^ (w2 >>> 10)) w7)
        (add32 ((rotr32 w15 7) ^^^ (rotr32 w15 18) ^^^ (w15 >>> 3)) w16)

/-- Extend the reversed message schedule `rev` (latest word first) by `n` words. -/
def extend : Nat → List Nat → List Nat
  | 0, rev => rev
  | n + 1, rev =>
    extend n (sched (rev.getD 1 0) (rev.getD 6 0) (rev.getD 14 0) (rev.getD 15 0) :: rev)

/-- One round of the compression function on the working variables `a … h`. -/
def round256 (s : List Nat) (k w : Nat) : List Nat :=
  match s with
  | [a, b, c, d, e, f, g, h] =>
    let t1 := add32 (add32 (add32 (add32 h ((rotr32 e 6) ^^^ (rotr32 e 11) ^^^ (rotr32 e 25)))
                ((e &&& f) ^^^ ((not32 e) &&& g))) k) w
    let t2 := add32 ((rotr32 a 2) ^^^ (rotr32 a 13) ^^^ (rotr32 a 22))
                ((a &&& b) ^^^ (a &&& c) ^^^ (b &&& c))
    [add32 t1 t2, a, b, c, add32 d t1, e, f, g]
  | _ => s

/-- The rounds of the compression function, one per constant and schedule word. -/
def rounds256 : List Nat → List Nat → List Nat → List Nat
  | s, k :: ks, w :: ws => rounds256 (round256 s k w) ks ws
  | s, _, _ => s

/-- Big-endian 32-bit words of a byte list. -/
def be32 : List Nat → List Nat
  | a :: b :: c :: d :: rest => (a * 16777216 + b * 65536 + c * 256 + d) :: be32 rest
  | _ => []

/-- The compression function: the hash value after one 64-byte chunk. -/
def compress (h : List Nat) (chunk : List Nat) : List Nat :=
  let w := (extend 48 (be32 chunk).reverse).reverse
  List.zipWith add32 h (rounds256 h K256 w)

/-- Compress `n` consecutive 64-byte chunks of `bytes`. -/
def chunks : Nat → List Nat → List Nat → List Nat
  | 0, h, _ => h
  | n + 1, h, bytes => chunks n (compress h (bytes.take 64)) (bytes.drop 64)

/-- The padded message: the bytes, `0x80`, zeros, and the bit length on 8 bytes. -/
def pad (msg : List Nat) : List Nat :=
  let l := msg.length
  let z := (119 - l % 64) % 64
  let bits := 8 * l
  msg.map (· % 256) ++ [128] ++ List.replicate z 0 ++
    [(bits >>> 56) % 256, (bits >>> 48) % 256, (bits >>> 40) % 256, (bits >>> 32) % 256,
     (bits >>> 24) % 256, (bits >>> 16) % 256, (bits >>> 8) % 256, bits % 256]

/-- The four bytes of a 32-bit word, most significant first. -/
def unbe32 (w : Nat) : List Nat :=
  [(w >>> 24) % 256, (w >>> 16) % 256, (w >>> 8) % 256, w % 256]

/-- The function `SHA256(d, n, md)` of OpenSSL on the `n` bytes `msg`: the 32-byte digest. -/
def SHA256 (msg : List Nat) : List Nat :=
  let p := pad msg
  ((chunks (p.length / 64) H256 p).map unbe32).flatten

/-! ## The data model -/

/-- The constant `SHA256_DIGEST_LENGTH` of `openssl/sha.h`. -/
def SHA256_DIGEST_LENGTH : Nat := 32

/-- The macro `SECONDS_INCREASE`, defined as `1 * 10`. -/
def SECONDS_INCREASE : Int := 1 * 10

/-- The macro `SECONDS_DECREASE`, defined as `2 * 10`. -/
def SECONDS_DECREASE : Int := 2 * 10

/-- The macro `INITIAL_DIFFICULTY`, defined as `16`. -/
def INITIAL_DIFFICULTY : Int := 16

/-- The macro `DIFFICULTY_ADJUSTMENT_PERIODS`, defined as `50`. -/
def DIFFICULTY_ADJUSTMENT_PERIODS : Int := 50

/-- A `block *`: `NULL`, or a pointer to a `struct block` with its fields in the order
of the declaration, except that `data` (the last field) holds the bytes of the
string `data` points to, a zero byte following them. `signature` is the
32-byte array, `nonce` the 33-byte array that follows it in memory. -/
inductive block where
  | NULL : block
  | mk (index : Int) (timestamp : Int) (signature : List Nat) (nonce : List Nat)
      (difficulty : Int) (parent : block) (data : List Nat) : block
deriving DecidableEq, Repr

/-- The `struct blockchain`: the pointer to the head block. -/
structure blockchain where
  /-- The head of the chain. -/
  block : block
deriving DecidableEq, Repr

/-! ## C strings -/

/-- The string that starts at the first byte of a memory region: the bytes before
the first zero byte. `none` when the region ends before a zero byte is met. This is
what `strlen`, `strcpy` and `strcat` read of their source. -/
def cstr : List Nat → Option (List Nat)
  | [] => none
  | c :: rest => if c = 0 then some [] else (cstr rest).map (c :: ·)

/-- The library function `strcmp(a, b)` on two memory regions: bytes are compared as
`unsigned char` until they differ or both are zero. `none` when a region ends before that. -/
def strcmp : List Nat → List Nat → Option Int
  | [], _ => none
  | _ :: _, [] => none
  | a :: as, b :: bs =>
    if a ≠ b then some ((a : Int) - (b : Int))
    else if a = 0 then some 0
    else strcmp as bs

/-! ## The functions of `blockchain.c` -/

/-- The value of a 32-bit two's complement `int` that holds the integer `x`: `x` itself
from `-2 ^ 31` to `2 ^ 31 - 1`, and `x` reduced modulo `2 ^ 32` into that range
otherwise. This is the conversion of a `long` to `int`. For an `int` product that
leaves the range, which C leaves undefined, it is the result of the machine's
multiplication. -/
def wrap32 (x : Int) : Int := (x + 2147483648) % 4294967296 - 2147483648

/-- The loop of `block_sa`: `k` iterations are left, `cur` is the current block and
`diff` the sum so far. The `time_t` difference is added to `diff` and the sum
stored back into the `int`; the product `diff * accuracy` is an `int`. -/
def block_sa_loop (n accuracy : Int) : Nat → block → Int → Option Int
  | 0, _, diff => if n = 0 then none else some (Int.tdiv (wrap32 (diff * accuracy)) n)
  | k + 1, cur, diff =>
    match cur with
    | .NULL => none
    | .mk _ timestamp _ _ _ parent _ =>
      match parent with
      | .NULL => some (-1)
      | .mk _ ptimestamp _ _ _ _ _ =>
        block_sa_loop n accuracy k parent (wrap32 (diff + (timestamp - ptimestamp)))

/-- The function `block_sa(b, n, accuracy)`: the loop runs for `i = 0 … n - 1`. -/
def block_sa (b : block) (n accuracy : Int) : Option Int :=
  block_sa_loop n accuracy n.toNat b 0

/-- The function `blockchain_push(b, element)`: the returned `int` and the chain afterwards. The
head of the chain afterwards is `element` with its `difficulty` field written. -/
def blockchain_push (_b : blockchain) (element : block) : Option (Int × blockchain) :=
  match element with
  | .NULL => none
  | .mk index timestamp signature nonce _ parent data =>
    match parent with
    | .NULL =>
      some (0, ⟨.mk index timestamp signature nonce INITIAL_DIFFICULTY parent data⟩)
    | .mk _ _ _ _ pdifficulty _ _ =>
      if Int.tmod index DIFFICULTY_ADJUSTMENT_PERIODS ≠ 0 then
        some (0, ⟨.mk index timestamp signature nonce pdifficulty parent data⟩)
      else
        match block_sa element DIFFICULTY_ADJUSTMENT_PERIODS 10 with
        | none => none
        | some td =>
          let difficulty :=
            if td = -1 then pdifficulty
            else if td < SECONDS_INCREASE then pdifficulty + 1
            else if td > SECONDS_DECREASE then pdifficulty - 1
            else pdifficulty
          some (0, ⟨.mk index timestamp signature nonce difficulty parent data⟩)

/-- The content of `toSign` when `block_gen_sha256` passes it to `SHA256`, all `len`
bytes of it: the string built by `strcpy` and two `strcat`, its terminating zero
byte, and past that what the buffer held when `malloc` returned it. The arguments
`data`, `parent_signature` and `nonce` are the memory regions the three pointers
point into. `none` when a string does not end inside its region or the
concatenation does not fit the buffer. -/
def block_gen_sha256_toSign (heap : Nat → Nat) (data parent_signature nonce : List Nat) :
    Option (List Nat) :=
  match cstr data, cstr parent_signature, cstr nonce with
  | some d, some p, some n =>
    let len := d.length + SHA256_DIGEST_LENGTH + 32 + 1
    let s := d ++ p ++ n
    if s.length + 1 ≤ len then
      some (s ++ [0] ++
        (List.range (len - (s.length + 1))).map fun j => heap (s.length + 1 + j) % 256)
    else none
  | _, _, _ => none

/-- The function `block_gen_sha256(data, parent_signature, nonce, buff)`: the 32 bytes written to
`buff`. -/
def block_gen_sha256 (heap : Nat → Nat) (data parent_signature nonce : List Nat) :
    Option (List Nat) :=
  (block_gen_sha256_toSign heap data parent_signature nonce).map SHA256

/-- The function `block_sign(b)`: the returned `int` and the block afterwards.
The array `b->parent->signature` is followed in memory by `b->parent->nonce`. -/
def block_sign (heap : Nat → Nat) (b : block) : Option (Int × block) :=
  match b with
  | .NULL => none
  | .mk index timestamp _ nonce difficulty parent data =>
    match parent with
    | .NULL => none
    | .mk _ _ psignature pnonce _ _ _ =>
      match block_gen_sha256 heap (data ++ [0]) (psignature ++ pnonce) nonce with
      | none => none
      | some buff => some (0, .mk index timestamp buff nonce difficulty parent data)

/-- The function `block_sign_genesis(b)`: the returned `int` and the block afterwards. -/
def block_sign_genesis (b : block) : Option (Int × block) :=
  match b with
  | .NULL => none
  | .mk index timestamp _ nonce difficulty parent data =>
    match cstr (data ++ [0]) with
    | none => none
    | some d => some (0, .mk index timestamp (SHA256 d) nonce difficulty parent data)

/-- The value of the `char` that holds the byte `c`, as an `int`: the byte itself where
`char` is unsigned, the byte minus 256 from 128 on where `char` is signed. -/
def charVal (char_signed : Bool) (c : Nat) : Int :=
  if char_signed && decide (128 ≤ c % 256) then (c % 256 : Nat) - 256 else (c % 256 : Nat)

/-- The loop of `difficulty_test`: the argument list is `hash` from index `i` on. -/
def difficulty_test_loop (char_signed : Bool) : List Nat → Int → Option Int
  | [], difficulty => if difficulty > 0 then none else some 0
  | c :: rest, difficulty =>
    if difficulty > 0 then
      if difficulty ≥ 8 then
        if charVal char_signed c ≠ 0 then some 1
        else difficulty_test_loop char_signed rest (difficulty - 8)
      else
        if charVal char_signed c >>> (8 - difficulty).toNat ≠ 0 then some 1
        else difficulty_test_loop char_signed rest (difficulty - 8)
    else some 0

/-- The function `difficulty_test(hash, difficulty)` on the 32-byte array `hash`;
`char_signed` tells whether the platform's `char` is signed. -/
def difficulty_test (char_signed : Bool) (hash : List Nat) (difficulty : Int) : Option Int :=
  difficulty_test_loop char_signed hash difficulty

/-- The function `block_verify(c, b)`. The local array `hash` is 32 bytes;
`b->signature` is followed in memory by `b->nonce`, `c->block->signature` by `c->block->nonce`. -/
def block_verify (char_signed : Bool) (heap : Nat → Nat) (c : blockchain) (b : block) :
    Option Int :=
  match b with
  | .NULL => none
  | .mk _ _ signature nonce _ _ data =>
    match nonce with
    | [] => none
    | n0 :: _ =>
      if n0 = 0 then some (-1)
      else
        match c.block with
        | .NULL => none
        | .mk _ _ hsignature hnonce hdifficulty _ _ =>
          match block_gen_sha256 heap (data ++ [0]) (hsignature ++ hnonce) nonce with
          | none => none
          | some hash =>
            match strcmp hash (signature ++ nonce) with
            | none => none
            | some r =>
              if r = 0 then
                match difficulty_test char_signed hash hdifficulty with
                | none => none
                | some t => if t = 0 then some 0 else some (-1)
              else some (-1)

/-- The function `create_block(parent, data)`. `time(NULL)` returns `now`;
`signature0`, `nonce0` and `difficulty0` are what the `malloc`ed struct held in the
fields the function does not write (`nonce0` its 33 nonce bytes, of which the first
is overwritten). -/
def create_block (signature0 nonce0 : List Nat) (difficulty0 : Int) (now : Int)
    (parent : block) (data : List Nat) : block :=
  let index : Int :=
    match parent with
    | .NULL => 0
    | .mk pindex _ _ _ _ _ _ => pindex + 1
  .mk index now signature0 (0 :: nonce0.drop 1) difficulty0 parent (data.takeWhile (· ≠ 0))

/-! ## Notions of the specification -/

/-- Bit `j` of a byte array, read most significant bit first from byte 0. -/
def hashBit (hash : List Nat) (j : Nat) : Nat :=
  (hash.getD (j / 8) 0 / 2 ^ (7 - j % 8)) % 2

/-- The first `d` bits of `hash` are all zero. -/
def leadingZeroBits (hash : List Nat) (d : Int) : Prop :=
  ∀ j : Nat, (j : Int) < d → hashBit hash j = 0

/-- The number of blocks on the parent chain that starts at `b`, `b` included. -/
def depth : block → Nat
  | .NULL => 0
  | .mk _ _ _ _ _ parent _ => depth parent + 1

/-- The number of ancestors of the block `b`. -/
def ancestors (b : block) : Nat := depth b - 1

/-- The field `timestamp` (0 at `NULL`). -/
def timestampOf : block → Int
  | .NULL => 0
  | .mk _ timestamp _ _ _ _ _ => timestamp

/-- The field `difficulty` (0 at `NULL`). -/
def difficultyOf : block → Int
  | .NULL => 0
  | .mk _ _ _ _ difficulty _ _ => difficulty

/-- The field `parent` (`NULL` at `NULL`). -/
def parentOf : block → block
  | .NULL => .NULL
  | .mk _ _ _ _ _ parent _ => parent

/-- The `k`-th ancestor of `b`: `b` itself for `k = 0`, its parent for `k = 1`. -/
def nthAncestor : Nat → block → block
  | 0, b => b
  | k + 1, b => nthAncestor k (parentOf b)

/-- The sum of the `k` consecutive timestamp differences `timestamp_i - timestamp_(i-1)`
that end at `b`. -/
def diffSum : Nat → block → Int
  | 0, _ => 0
  | k + 1, b => (timestampOf b - timestampOf (parentOf b)) + diffSum k (parentOf b)

/-! ## Concrete blocks -/

/-- The bytes of `"Genesis Block"`. -/
def genesisPayload : List Nat := [71, 101, 110, 101, 115, 105, 115, 32, 66, 108, 111, 99, 107]

/-- SHA-256 of `"Genesis Block"`: `89eb0ac0…07b7a3`, no byte of it is zero. -/
def genesisDigest : List Nat :=
  [137, 235, 10, 192, 49, 166, 61, 36, 33, 205, 5, 162, 251, 228, 31, 62,
   163, 95, 92, 55, 18, 202, 131, 156, 191, 107, 133, 196, 238, 7, 183, 163]

/-- The genesis block of `main` after `block_sign_genesis` and `blockchain_push`, created
at time 1000 in zeroed memory. -/
def genesisBlock : block :=
  .mk 0 1000 genesisDigest (List.replicate 33 0) 16 .NULL genesisPayload

/-- The bytes of `"Another Test Block"`. -/
def testPayload : List Nat :=
  [65, 110, 111, 116, 104, 101, 114, 32, 84, 101, 115, 116, 32, 66, 108, 111, 99, 107]

/-- A buffer that `malloc` returns zeroed. -/
def zeroHeap : Nat → Nat := fun _ => 0

/-- A nonce as `rand_bytes(nonce, 33)` leaves it, none of its first 32 bytes zero. -/
def nonceA : List Nat := [249, 65] ++ List.replicate 30 1 ++ [0]

/-- The digest `block_gen_sha256` computes for `testPayload`, the genesis block as parent
and `nonceA`: it starts with 16 zero bits. -/
def digestA : List Nat :=
  [0, 0, 147, 129, 243, 12, 168, 158, 100, 78, 210, 90, 36, 90, 69, 103,
   240, 188, 15, 156, 162, 73, 103, 131, 60, 210, 178, 112, 187, 191, 183, 250]

/-- The block mined on the genesis block with `nonceA`, signed. -/
def blockA : block := .mk 1 1001 digestA nonceA 0 genesisBlock testPayload

/-- The block `blockA` with the bytes 1 to 31 of its stored commitment overwritten. -/
def forgedA : block :=
  .mk 1 1001 (0 :: List.replicate 31 255) nonceA 0 genesisBlock testPayload

/-- A nonce as `rand_bytes(nonce, 33)` leaves it, with a zero byte at index 3. -/
def nonceB : List Nat := [142, 57, 1, 0] ++ List.replicate 28 7 ++ [0]

/-- The nonce `nonceB` with the lowest bit of the byte at index 4 flipped (7 to 6). -/
def nonceB_flipped : List Nat := [142, 57, 1, 0, 6] ++ List.replicate 27 7 ++ [0]

/-- The digest `block_gen_sha256` computes in a zeroed buffer for `testPayload`, the
genesis block as parent and `nonceB`. -/
def digestB : List Nat :=
  [0, 0, 250, 163, 230, 156, 19, 4, 209, 233, 50, 85, 130, 60, 146, 189,
   178, 25, 85, 149, 38, 219, 53, 148, 195, 63, 74, 230, 244, 155, 76, 49]

/-- The block mined on the genesis block with `nonceB`, signed in a zeroed buffer. -/
def blockB : block := .mk 1 1001 digestB nonceB 0 genesisBlock testPayload

/-- The block `blockB` with one bit of its stored nonce flipped. -/
def blockB_flipped : block := .mk 1 1001 digestB nonceB_flipped 0 genesisBlock testPayload

/-- A nonce as `rand_bytes(nonce, 33)` leaves it, with a zero byte at index 1. -/
def nonceC : List Nat := [5, 0] ++ List.replicate 30 9 ++ [0]

/-- A candidate on the genesis block with `nonceC`, not yet signed. -/
def candidateC : block :=
  .mk 1 1001 (List.replicate 32 0) nonceC 0 genesisBlock testPayload

/-- A buffer whose bytes repeat `fc 00 00 00`. -/
def heapSign : Nat → Nat := fun i => (252 / 256 ^ (i % 4)) % 256

/-- A buffer whose bytes repeat `6a 44 00 00`. -/
def heapVerify : Nat → Nat := fun i => (17514 / 256 ^ (i % 4)) % 256

/-- The digest of `candidateC` in the buffer `heapSign`: 8 leading zero bits only. -/
def digestC : List Nat :=
  [0, 164, 9, 138, 93, 60, 216, 255, 79, 4, 14, 96, 154, 62, 239, 222,
   122, 151, 189, 31, 46, 59, 153, 254, 105, 204, 217, 210, 126, 225, 24, 98]

/-- A chain of `k + 1` blocks, from the genesis block (index 0) to the block of index
`k`; the block of index `i` has timestamp `ts i`, and all have difficulty 16. -/
def chainOf (ts : Nat → Int) : Nat → block
  | 0 => .mk 0 (ts 0) genesisDigest (List.replicate 33 0) 16 .NULL genesisPayload
  | k + 1 => .mk (k + 1 : Nat) (ts (k + 1)) digestA nonceA 16 (chainOf ts k) testPayload

/-- Timestamps one second apart. -/
def tsEverySecond : Nat → Int := fun i => 1000 + i

/-- Timestamps of a genesis block created at time 0 and later blocks created at time
3000000000 (the year 2065). -/
def tsLongGap : Nat → Int := fun i => if i = 0 then 0 else 3000000000

/-- Timestamps of a clock set back by 5 seconds after the genesis block. -/
def tsClockSetBack : Nat → Int := fun i => if i = 0 then 1005 else 1000

/-- The digest of `candidateC` in the buffer `heapVerify`: 16 leading zero bits. -/
def digestC_verify : List Nat :=
  [0, 0, 189, 86, 94, 145, 206, 61, 20, 150, 74, 11, 130, 148, 76, 207,
   135, 41, 4, 132, 125, 154, 81, 162, 248, 221, 152, 242, 242, 236, 140, 244]

/-! ## Building a chain, as `main` does -/

/-- The field `index` (0 at `NULL`). -/
def indexOf : block → Int
  | .NULL => 0
  | .mk index _ _ _ _ _ _ => index

/-- The field `signature` (empty at `NULL`). -/
def signatureOf : block → List Nat
  | .NULL => []
  | .mk _ _ signature _ _ _ _ => signature

/-- The writes to a block between `create_block` and `blockchain_push`: `rand_bytes`
writes the field `nonce`, `block_sign` and `block_sign_genesis` write the field
`signature`. -/
def set_signature_nonce (signature nonce : List Nat) : block → block
  | .NULL => .NULL
  | .mk index timestamp _ _ difficulty parent data =>
    .mk index timestamp signature nonce difficulty parent data

/-- What one round of the loop of `main` depends on: the content of the memory
`create_block` gets from `malloc`, the time, the payload, and the signature and nonce
the block carries when it is pushed. -/
structure Step where
  /-- The bytes of the fresh struct at `signature`. -/
  signature0 : List Nat
  /-- The bytes of the fresh struct at `nonce`. -/
  nonce0 : List Nat
  /-- The value of the fresh struct at `difficulty`. -/
  difficulty0 : Int
  /-- The value `time(NULL)` returns. -/
  now : Int
  /-- The payload. -/
  data : List Nat
  /-- The signature at the time of the push. -/
  signature : List Nat
  /-- The nonce at the time of the push. -/
  nonce : List Nat

/-- The block created on `parent` in a round, as it is when it is pushed. -/
def candidate (parent : block) (s : Step) : block :=
  set_signature_nonce s.signature s.nonce
    (create_block s.signature0 s.nonce0 s.difficulty0 s.now parent s.data)

/-- The rounds of the loop of `main`: each creates a block on the current head and
admits it with `blockchain_push`. -/
def build : blockchain → List Step → Option blockchain
  | c, [] => some c
  | c, s :: rest =>
    match blockchain_push c (candidate c.block s) with
    | none => none
    | some r => build r.2 rest

/-- The chain of `main`: a genesis block is created with no parent and pushed on the
fresh chain `c0`, then the rounds follow. -/
def buildChain (c0 : blockchain) (g : Step) (steps : List Step) : Option blockchain :=
  match blockchain_push c0 (candidate .NULL g) with
  | none => none
  | some r => build r.2 steps

/-- The invariant of a built chain, for every block on the parent chain from `b`: the
index is the number of ancestors, and the difficulty is 16 up to index 49. -/
def Linked : block → Prop
  | .NULL => True
  | .mk index _ _ _ difficulty parent _ =>
    index = depth parent ∧ (depth parent ≤ 49 → difficulty = 16) ∧ Linked parent

/-- A round with payload `"Another Test Block"` at time `t`, mined with `nonceA`. -/
def stepAt (t : Int) : Step :=
  ⟨List.replicate 32 0, List.replicate 33 0, 0, t, testPayload, digestA, nonceA⟩

/-- The round that creates the genesis block of `main` at time 1000. -/
def genesisStep : Step :=
  ⟨List.replicate 32 0, List.replicate 33 0, 0, 1000, genesisPayload, genesisDigest,
    List.replicate 33 0⟩

/-! ## The difficulty test -/

set_option maxRecDepth 1000000 in
theorem byte_zero_iff : ∀ (sgn : Bool) (c : Fin 256),
    charVal sgn c.val = 0 ↔ ∀ j : Fin 8, (c.val / 2 ^ (7 - j.val)) % 2 = 0 := by
  decide

set_option maxRecDepth 1000000 in
theorem byte_shift_iff : ∀ (sgn : Bool) (c : Fin 256) (k : Fin 8), 0 < k.val →
    (charVal sgn c.val >>> (8 - k.val) = 0 ↔
      ∀ j : Fin 8, j.val < k.val → (c.val / 2 ^ (7 - j.val)) % 2 = 0) := by
  decide

theorem hashBit_cons_lt (c : Nat) (rest : List Nat) (j : Nat) (hj : j < 8) :
    hashBit (c :: rest) j = (c / 2 ^ (7 - j)) % 2 := by
  have h0 : j / 8 = 0 := by omega
  have h1 : j % 8 = j := by omega
  simp [hashBit, h0, h1]

theorem hashBit_cons_add (c : Nat) (rest : List Nat) (j : Nat) :
    hashBit (c :: rest) (j + 8) = hashBit rest j := by
  have h0 : (j + 8) / 8 = j / 8 + 1 := by omega
  have h1 : (j + 8) % 8 = j % 8 := by omega
  simp [hashBit, h0, h1]


theorem charVal_zero_iff (sgn : Bool) (c : Nat) (hc : c < 256) :
    charVal sgn c = 0 ↔ ∀ j : Nat, j < 8 → (c / 2 ^ (7 - j)) % 2 = 0 := by
  have h := byte_zero_iff sgn ⟨c, hc⟩
  constructor
  · intro h0 j hj
    exact (h.mp h0) ⟨j, hj⟩
  · intro h0
    exact h.mpr (fun j => h0 j.val j.isLt)

theorem charVal_shift_iff (sgn : Bool) (c : Nat) (hc : c < 256) (k : Nat) (hk0 : 0 < k)
    (hk8 : k < 8) :
    charVal sgn c >>> (8 - k) = 0 ↔ ∀ j : Nat, j < k → (c / 2 ^ (7 - j)) % 2 = 0 := by
  have h := byte_shift_iff sgn ⟨c, hc⟩ ⟨k, hk8⟩ hk0
  constructor
  · intro h0 j hj
    exact (h.mp h0) ⟨j, by omega⟩ hj
  · intro h0
    exact h.mpr (fun j hj => h0 j.val hj)

theorem difficulty_test_loop_spec (sgn : Bool) :
    ∀ (hs : List Nat), (∀ x ∈ hs, x < 256) → ∀ d : Int, d ≤ 8 * (hs.length : Int) →
      (difficulty_test_loop sgn hs d = some 0 ∧ leadingZeroBits hs d) ∨
      (difficulty_test_loop sgn hs d = some 1 ∧ ¬ leadingZeroBits hs d) := by
  intro hs
  induction hs with
  | nil =>
    intro _ d hd
    left
    have hd0 : ¬ d > 0 := by simpa using hd
    refine ⟨by simp [difficulty_test_loop, hd0], ?_⟩
    intro j hj
    omega
  | cons c rest ih =>
    intro hb d hd
    have hc : c < 256 := hb c (by simp)
    have hrest : ∀ x ∈ rest, x < 256 := fun x hx => hb x (by simp [hx])
    by_cases hpos : d > 0
    · by_cases h8 : d ≥ 8
      · by_cases hz : charVal sgn c = 0
        · have hlen : d - 8 ≤ 8 * (rest.length : Int) := by
            simp only [List.length_cons, Nat.cast_add, Nat.cast_one] at hd
            omega
          have hbits := (charVal_zero_iff sgn c hc).mp hz
          have hstep : difficulty_test_loop sgn (c :: rest) d =
              difficulty_test_loop sgn rest (d - 8) := by
            simp [difficulty_test_loop, hpos, h8, hz]
          have hiff : leadingZeroBits (c :: rest) d ↔ leadingZeroBits rest (d - 8) := by
            constructor
            · intro h j hj
              have := h (j + 8) (by push_cast; omega)
              rwa [hashBit_cons_add] at this
            · intro h j hj
              by_cases hj8 : j < 8
              · rw [hashBit_cons_lt c rest j hj8]
                exact hbits j hj8
              · obtain ⟨i, rfl⟩ : ∃ i, j = i + 8 := ⟨j - 8, by omega⟩
                rw [hashBit_cons_add]
                exact h i (by push_cast at hj; omega)
          rw [hstep, hiff]
          exact ih hrest (d - 8) hlen
        · right
          refine ⟨by simp [difficulty_test_loop, hpos, h8, hz], ?_⟩
          intro h
          apply hz
          rw [charVal_zero_iff sgn c hc]
          intro j hj
          have := h j (by omega)
          rwa [hashBit_cons_lt c rest j hj] at this
      · obtain ⟨k, rfl⟩ : ∃ k : Nat, d = (k : Int) := ⟨d.toNat, by omega⟩
        have hk0 : 0 < k := by omega
        have hk8 : k < 8 := by omega
        have hsh : (8 - (k : Int)).toNat = 8 - k := by omega
        have hnext : difficulty_test_loop sgn rest ((k : Int) - 8) = some 0 := by
          have : ¬ ((k : Int) - 8 > 0) := by omega
          cases rest <;> simp [difficulty_test_loop, this]
        have hiff := charVal_shift_iff sgn c hc k hk0 hk8
        by_cases hz : charVal sgn c >>> (8 - k) = 0
        · left
          refine ⟨by simp [difficulty_test_loop, hpos, h8, hsh, hz, hnext], ?_⟩
          intro j hj
          have hjk : j < k := by omega
          rw [hashBit_cons_lt c rest j (by omega)]
          exact hiff.mp hz j hjk
        · right
          refine ⟨by simp [difficulty_test_loop, hpos, h8, hsh, hz], ?_⟩
          intro h
          apply hz
          rw [hiff]
          intro j hj
          have := h j (by omega)
          rwa [hashBit_cons_lt c rest j (by omega)] at this
    · left
      refine ⟨by simp [difficulty_test_loop, hpos], ?_⟩
      intro j hj
      omega

/-- C2. For a 32-byte hash and a difficulty `d` with `0 ≤ d ≤ 256`, `difficulty_test`
returns 0 exactly when the first `d` bits of the hash, most significant bit first from
byte 0, are all zero, and it returns 1 otherwise; the same whether `char` is signed
or unsigned. -/
theorem difficulty_test_accepts_iff_leading_zero_bits (char_signed : Bool) (hash : List Nat)
    (d : Int) (hlen : hash.length = 32) (hbytes : ∀ x ∈ hash, x < 256) (h0 : 0 ≤ d)
    (h256 : d ≤ 256) :
    (difficulty_test char_signed hash d = some 0 ↔ leadingZeroBits hash d) ∧
    (difficulty_test char_signed hash d = some 0 ∨
      difficulty_test char_signed hash d = some 1) := by
  have hd : d ≤ 8 * (hash.length : Int) := by rw [hlen]; omega
  unfold difficulty_test
  rcases difficulty_test_loop_spec char_signed hash hbytes d hd with ⟨h, hz⟩ | ⟨h, hz⟩
  · exact ⟨⟨fun _ => hz, fun _ => h⟩, Or.inl h⟩
  · refine ⟨⟨fun h' => ?_, fun h' => absurd h' hz⟩, Or.inr h⟩
    rw [h] at h'
    exact absurd h' (by decide)

/-- The difficulty test at a hash with 11 leading zero bits (`00 1f ff …`), signed
`char`, difficulty 11: the hypotheses of the theorem hold there. -/
theorem difficulty_test_accepts_iff_leading_zero_bits_witness :
    (0 :: 31 :: List.replicate 30 255).length = 32 ∧
    (∀ x ∈ 0 :: 31 :: List.replicate 30 255, x < 256) ∧
    (0 : Int) ≤ 11 ∧ (11 : Int) ≤ 256 ∧
    ((difficulty_test true (0 :: 31 :: List.replicate 30 255) 11 = some 0 ↔
        leadingZeroBits (0 :: 31 :: List.replicate 30 255) 11) ∧
      (difficulty_test true (0 :: 31 :: List.replicate 30 255) 11 = some 0 ∨
        difficulty_test true (0 :: 31 :: List.replicate 30 255) 11 = some 1)) :=
  ⟨by decide, by decide, by decide, by decide,
    difficulty_test_accepts_iff_leading_zero_bits true (0 :: 31 :: List.replicate 30 255) 11
      (by decide) (by decide) (by decide) (by decide)⟩

/-! ## The digest -/

set_option maxRecDepth 100000 in
/-- The test vector of FIPS 180-4 for the message `"abc"`: `ba7816bf … f20015ad`. -/
theorem SHA256_abc :
    SHA256 [97, 98, 99] =
      [186, 120, 22, 191, 143, 1, 207, 234, 65, 65, 64, 222, 93, 174, 34, 35,
       176, 3, 97, 163, 150, 23, 122, 156, 180, 16, 255, 97, 242, 0, 21, 173] := by
  decide

set_option maxRecDepth 100000 in
/-- The commitment `block_sign_genesis` writes for the payload `"Genesis Block"`. -/
theorem SHA256_genesisPayload : SHA256 genesisPayload = genesisDigest := by
  decide

set_option maxRecDepth 100000 in
/-- The block `blockA` is a mined block: `block_verify` accepts it on the chain whose
head is the genesis block, and its commitment is the digest `block_sign` writes. -/
theorem blockA_mined :
    block_sign zeroHeap blockA = some (0, blockA) ∧
    block_verify false zeroHeap ⟨genesisBlock⟩ blockA = some 0 := by
  refine ⟨by decide, by decide⟩

/-- The bytes `block_gen_sha256` hashes are `strlen(data) + 65` in number, one more than
payload, commitment and nonce together have. -/
theorem block_gen_sha256_toSign_length (heap : Nat → Nat) (data parent_signature nonce : List Nat)
    (d buf : List Nat) (hd : cstr data = some d)
    (h : block_gen_sha256_toSign heap data parent_signature nonce = some buf) :
    buf.length = d.length + 65 := by
  unfold block_gen_sha256_toSign at h
  rw [hd] at h
  cases hp : cstr parent_signature with
  | none => simp [hp] at h
  | some p =>
    cases hn : cstr nonce with
    | none => simp [hp, hn] at h
    | some n =>
      simp only [hp, hn] at h
      split at h
      · rename_i hle
        simp only [Option.some.injEq] at h
        subst h
        simp only [SHA256_DIGEST_LENGTH, List.length_append, List.length_map, List.length_range,
          List.length_singleton] at hle ⊢
        omega
      · simp at h

/-- C1, at a failing input. The payload is `"Another Test Block"`, the parent is the mined
block `blockA` (its commitment `digestA` starts with a zero byte) and the nonce is
`nonceB` (zero byte at index 3). In a zeroed buffer the 83 bytes passed to SHA-256 are
the payload, the three nonce bytes before the zero byte, and 62 zero bytes: no byte
of the parent commitment and none of the nonce bytes from index 3 on. They are not
the payload followed by the 32 commitment bytes and the 32 nonce bytes, and the
digest written is the SHA-256 of those 83 bytes. -/
theorem block_gen_sha256_truncates_at_zero_bytes :
    block_gen_sha256_toSign zeroHeap (testPayload ++ [0]) (digestA ++ nonceA) nonceB =
      some (testPayload ++ [142, 57, 1] ++ List.replicate 62 0) ∧
    testPayload ++ [142, 57, 1] ++ List.replicate 62 0 ≠
      testPayload ++ digestA ++ nonceB.take 32 ∧
    block_gen_sha256 zeroHeap (testPayload ++ [0]) (digestA ++ nonceA) nonceB =
      some (SHA256 (testPayload ++ [142, 57, 1] ++ List.replicate 62 0)) := by
  have h : block_gen_sha256_toSign zeroHeap (testPayload ++ [0]) (digestA ++ nonceA) nonceB =
      some (testPayload ++ [142, 57, 1] ++ List.replicate 62 0) := by decide
  refine ⟨h, by decide, ?_⟩
  rw [block_gen_sha256, h]
  rfl

/-! ## The validator -/

set_option maxRecDepth 100000 in
/-- C3, at a failing input. The chain head is the genesis block (difficulty 16), the
candidate `forgedA` carries the nonce `nonceA` (first byte not zero) and the stored
commitment `00 ff ff … ff`. The recomputed digest is `digestA = 00 00 93 81 …`, which
differs from the stored commitment from byte 1 on, and `block_verify` returns 0. -/
theorem block_verify_accepts_forged_commitment :
    block_gen_sha256 zeroHeap (testPayload ++ [0]) (genesisDigest ++ List.replicate 33 0) nonceA
      = some digestA ∧
    digestA ≠ 0 :: List.replicate 31 255 ∧
    block_verify false zeroHeap ⟨genesisBlock⟩ forgedA = some 0 ∧
    block_verify true zeroHeap ⟨genesisBlock⟩ forgedA = some 0 := by
  refine ⟨by decide, by decide, by decide, by decide⟩

set_option maxRecDepth 100000 in
/-- C4, at a failing input. The candidate `candidateC` has the genesis block (difficulty
16) as parent. `block_sign` hashes a buffer whose uninitialised tail is `heapSign` and
stores `digestC = 00 a4 …`; `block_verify` then hashes a buffer whose uninitialised tail
is `heapVerify`, gets a digest with 16 leading zero bits, finds it equal to the stored
commitment by `strcmp` (both start with a zero byte) and returns 0. The stored
commitment fails the difficulty test at difficulty 16. -/
theorem admitted_commitment_fails_difficulty :
    block_sign heapSign candidateC =
      some (0, .mk 1 1001 digestC nonceC 0 genesisBlock testPayload) ∧
    block_verify false heapVerify ⟨genesisBlock⟩
      (.mk 1 1001 digestC nonceC 0 genesisBlock testPayload) = some 0 ∧
    difficulty_test false digestC 16 = some 1 := by
  refine ⟨by decide, by decide, by decide⟩

/-- When `block_verify` hashes the very bytes `block_sign` hashed (the same buffer
content `heap`), a block it accepts has a stored commitment that passes the
difficulty test of the chain head. -/
theorem block_verify_same_buffer_meets_difficulty (char_signed : Bool) (heap : Nat → Nat)
    (index timestamp : Int) (signature nonce : List Nat) (difficulty : Int) (data : List Nat)
    (pindex ptimestamp : Int) (psignature pnonce : List Nat) (pdifficulty : Int)
    (pparent : block) (pdata : List Nat) (buff : List Nat)
    (hsign : block_sign heap (.mk index timestamp signature nonce difficulty
        (.mk pindex ptimestamp psignature pnonce pdifficulty pparent pdata) data) =
      some (0, .mk index timestamp buff nonce difficulty
        (.mk pindex ptimestamp psignature pnonce pdifficulty pparent pdata) data))
    (hverify : block_verify char_signed heap
        ⟨.mk pindex ptimestamp psignature pnonce pdifficulty pparent pdata⟩
        (.mk index timestamp buff nonce difficulty
          (.mk pindex ptimestamp psignature pnonce pdifficulty pparent pdata) data) = some 0) :
    difficulty_test char_signed buff pdifficulty = some 0 := by
  simp only [block_sign] at hsign
  cases hgen : block_gen_sha256 heap (data ++ [0]) (psignature ++ pnonce) nonce with
  | none => simp [hgen] at hsign
  | some hash =>
    simp only [hgen, Option.some.injEq, Prod.mk.injEq, block.mk.injEq, true_and, and_true]
      at hsign
    subst hsign
    cases nonce with
    | nil => simp [block_verify] at hverify
    | cons n0 rest =>
      simp only [block_verify, hgen] at hverify
      split at hverify
      · simp at hverify
      · split at hverify
        · simp at hverify
        · split at hverify
          · split at hverify
            · simp at hverify
            · rename_i t ht
              split at hverify
              · rename_i h0
                rw [ht, h0]
              · simp at hverify
          · simp at hverify

set_option maxRecDepth 100000 in
/-- C5, at a failing input. The block `blockB` (nonce `8e 39 01 00 07 … 07`) is accepted
by `block_verify` against the chain whose head is its parent, the genesis block. With
the lowest bit of nonce byte 4 flipped, `block_verify` against the same chain still
returns 0: the nonce bytes after the zero byte at index 3 are not hashed. -/
theorem block_verify_accepts_flipped_nonce :
    block_verify false zeroHeap ⟨genesisBlock⟩ blockB = some 0 ∧
    blockB_flipped ≠ blockB ∧
    block_verify false zeroHeap ⟨genesisBlock⟩ blockB_flipped = some 0 := by
  refine ⟨by decide, by decide, by decide⟩

/-- C6. Whatever the chain, `block_verify` returns -1 for a candidate whose nonce is the
all-zero sentinel, and for a block as `create_block` returns it (whatever the memory
`malloc` handed out held). -/
theorem block_verify_rejects_unmined (char_signed : Bool) (heap : Nat → Nat) (c : blockchain) :
    (∀ (index timestamp : Int) (signature : List Nat) (difficulty : Int) (parent : block)
        (data : List Nat),
      block_verify char_signed heap c
        (.mk index timestamp signature (List.replicate 33 0) difficulty parent data) =
        some (-1)) ∧
    (∀ (signature0 nonce0 : List Nat) (difficulty0 now : Int) (parent : block) (data : List Nat),
      block_verify char_signed heap c
        (create_block signature0 nonce0 difficulty0 now parent data) = some (-1)) := by
  constructor
  · intro index timestamp signature difficulty parent data
    simp [block_verify, List.replicate]
  · intro signature0 nonce0 difficulty0 now parent data
    simp [block_verify, create_block]

/-! ## The mean interval -/

theorem diffSum_eq_sub (k : Nat) : ∀ b : block,
    diffSum k b = timestampOf b - timestampOf (nthAncestor k b) := by
  induction k with
  | zero => intro b; simp [diffSum, nthAncestor]
  | succ k ih =>
    intro b
    rw [diffSum, nthAncestor, ih (parentOf b)]
    ring

theorem wrap32_of_range (x : Int) (h1 : -2147483648 ≤ x) (h2 : x < 2147483648) :
    wrap32 x = x := by
  unfold wrap32
  omega

theorem wrap32_add_mul (x m : Int) : wrap32 (x + 4294967296 * m) = wrap32 x := by
  unfold wrap32
  rw [show x + 4294967296 * m + 2147483648 = x + 2147483648 + 4294967296 * m by ring,
    Int.add_mul_emod_self_left]

theorem wrap32_eq_sub (x : Int) : ∃ q : Int, wrap32 x = x - 4294967296 * q := by
  refine ⟨(x + 2147483648) / 4294967296, ?_⟩
  unfold wrap32
  have h := Int.emod_add_ediv (x + 2147483648) 4294967296
  omega

theorem wrap32_wrap_add_mul (x y a : Int) :
    wrap32 ((wrap32 x + y) * a) = wrap32 ((x + y) * a) := by
  obtain ⟨q, hq⟩ := wrap32_eq_sub x
  rw [hq, show (x - 4294967296 * q + y) * a = (x + y) * a + 4294967296 * (-(q * a)) by ring,
    wrap32_add_mul]

theorem block_sa_loop_enough (n accuracy : Int) (k : Nat) : ∀ (cur : block) (diff : Int),
    k ≤ ancestors cur →
    block_sa_loop n accuracy k cur diff =
      if n = 0 then none
      else some (Int.tdiv (wrap32 ((diff + diffSum k cur) * accuracy)) n) := by
  induction k with
  | zero => intro cur diff _; simp [block_sa_loop, diffSum]
  | succ k ih =>
    intro cur diff hk
    match cur, hk with
    | .NULL, hk => simp [ancestors, depth] at hk
    | .mk _ timestamp _ _ _ .NULL _, hk => simp [ancestors, depth] at hk
    | .mk _ timestamp _ _ _ (.mk pi pt ps pn pd pp pdata) _, hk =>
      have hk2 : k ≤ ancestors (.mk pi pt ps pn pd pp pdata) := by
        simp only [ancestors, depth] at hk ⊢
        omega
      rw [block_sa_loop, ih _ _ hk2]
      simp only [diffSum, timestampOf, parentOf]
      rw [wrap32_wrap_add_mul, add_assoc]

theorem block_sa_loop_short (n accuracy : Int) (k : Nat) : ∀ (cur : block) (diff : Int),
    cur ≠ .NULL → ancestors cur < k → block_sa_loop n accuracy k cur diff = some (-1) := by
  induction k with
  | zero => intro cur diff _ hk; omega
  | succ k ih =>
    intro cur diff hcur hk
    match cur, hcur, hk with
    | .NULL, hcur, _ => exact absurd rfl hcur
    | .mk _ timestamp _ _ _ .NULL _, _, _ => simp [block_sa_loop]
    | .mk _ timestamp _ _ _ (.mk pi pt ps pn pd pp pdata) _, _, hk =>
      have hk2 : ancestors (.mk pi pt ps pn pd pp pdata) < k := by
        simp only [ancestors, depth] at hk ⊢
        omega
      rw [block_sa_loop]
      exact ih _ _ (by simp) hk2

theorem block_sa_cases (n : Int) (hn : 0 < n) (accuracy : Int) (b : block) (hb : b ≠ .NULL) :
    (ancestors b < n.toNat → block_sa b n accuracy = some (-1)) ∧
    (n.toNat ≤ ancestors b →
      block_sa b n accuracy =
        some (Int.tdiv (wrap32 (diffSum n.toNat b * accuracy)) n)) := by
  have hn0 : n ≠ 0 := by omega
  constructor
  · intro h
    exact block_sa_loop_short n accuracy n.toNat b 0 hb h
  · intro h
    rw [block_sa, block_sa_loop_enough n accuracy n.toNat b 0 h]
    simp [hn0]

theorem block_sa_isSome (n : Int) (hn : 0 < n) (accuracy : Int) (b : block) (hb : b ≠ .NULL) :
    ∃ td, block_sa b n accuracy = some td := by
  have h := block_sa_cases n hn accuracy b hb
  by_cases hlt : ancestors b < n.toNat
  · exact ⟨_, h.1 hlt⟩
  · exact ⟨_, h.2 (by omega)⟩

/-- C10, the claim as stated fails. The block of index 1 has timestamp 3000000000 and
its parent, the genesis block, timestamp 0: it has one ancestor and the sum of its 1
timestamp difference is 3000000000. `block_sa(b, 1, 1)` stores that sum in the `int`
`diff`, which then holds -1294967296, and returns -1294967296, not
`(3000000000 * 1) / 1`. -/
theorem block_sa_long_gap_wraps :
    1 ≤ ancestors (chainOf tsLongGap 1) ∧
    diffSum 1 (chainOf tsLongGap 1) = 3000000000 ∧
    block_sa (chainOf tsLongGap 1) 1 1 = some (-1294967296) ∧
    block_sa (chainOf tsLongGap 1) 1 1 ≠
      some (Int.tdiv (diffSum 1 (chainOf tsLongGap 1) * 1) 1) := by
  refine ⟨by decide, by decide, by decide, by decide⟩

/-- C10, amended. For `n > 0`, every `accuracy` and every block `b`:
`block_sa(b, n, accuracy)` returns -1 when `b` has fewer than `n` ancestors. Otherwise,
with `S` the sum of the `n` consecutive timestamp differences that end at `b`, which
is the timestamp of `b` minus the timestamp of the `n`-th ancestor of `b`: when
`S * accuracy` fits a 32-bit `int`, it returns `(S * accuracy) / n`, the division
truncating. -/
theorem block_sa_spec (n : Nat) (hn : 0 < n) (accuracy : Int) (b : block) (hb : b ≠ .NULL) :
    (ancestors b < n → block_sa b n accuracy = some (-1)) ∧
    (n ≤ ancestors b →
      (-2147483648 ≤ diffSum n b * accuracy → diffSum n b * accuracy < 2147483648 →
        block_sa b n accuracy = some (Int.tdiv (diffSum n b * accuracy) n)) ∧
      diffSum n b = timestampOf b - timestampOf (nthAncestor n b)) := by
  have h := block_sa_cases n (by omega) accuracy b hb
  rw [Int.toNat_ofNat] at h
  refine ⟨h.1, fun hle => ⟨fun h1 h2 => ?_, diffSum_eq_sub n b⟩⟩
  rw [h.2 hle, wrap32_of_range _ h1 h2]

/-- The mean interval over 3 links of a chain of 5 blocks one second apart, at
accuracy 10: the block has 4 ancestors, the sum is 3, the product 30 fits an `int`
and the result is 10. -/
theorem block_sa_spec_witness :
    0 < 3 ∧ chainOf tsEverySecond 4 ≠ .NULL ∧
    3 ≤ ancestors (chainOf tsEverySecond 4) ∧
    -2147483648 ≤ diffSum 3 (chainOf tsEverySecond 4) * 10 ∧
    diffSum 3 (chainOf tsEverySecond 4) * 10 < 2147483648 ∧
    block_sa (chainOf tsEverySecond 4) (3 : Nat) 10 = some 10 ∧
    ((ancestors (chainOf tsEverySecond 4) < 3 →
        block_sa (chainOf tsEverySecond 4) (3 : Nat) 10 = some (-1)) ∧
      (3 ≤ ancestors (chainOf tsEverySecond 4) →
        (-2147483648 ≤ diffSum 3 (chainOf tsEverySecond 4) * 10 →
          diffSum 3 (chainOf tsEverySecond 4) * 10 < 2147483648 →
          block_sa (chainOf tsEverySecond 4) (3 : Nat) 10 =
            some (Int.tdiv (diffSum 3 (chainOf tsEverySecond 4) * 10) (3 : Nat))) ∧
        diffSum 3 (chainOf tsEverySecond 4) =
          timestampOf (chainOf tsEverySecond 4) -
            timestampOf (nthAncestor 3 (chainOf tsEverySecond 4)))) :=
  ⟨by decide, by decide, by decide, by decide, by decide, by decide,
    block_sa_spec 3 (by decide) 10 (chainOf tsEverySecond 4) (by decide)⟩

/-! ## The difficulty controller -/

theorem diffSum_of_spacing (c : Int) (k : Nat) : ∀ b : block,
    (∀ i, i < k → timestampOf (nthAncestor i b) - timestampOf (nthAncestor (i + 1) b) = c) →
    diffSum k b = k * c := by
  induction k with
  | zero => intro b _; simp [diffSum]
  | succ k ih =>
    intro b h
    have h0 := h 0 (by omega)
    simp only [nthAncestor] at h0
    have hrest : ∀ i, i < k →
        timestampOf (nthAncestor i (parentOf b)) -
          timestampOf (nthAncestor (i + 1) (parentOf b)) = c := by
      intro i hi
      have := h (i + 1) (by omega)
      simpa [nthAncestor] using this
    rw [diffSum, ih (parentOf b) hrest, h0]
    push_cast
    ring

/-- At an adjustment boundary with at least 50 ancestors, when the scaled mean `m` of
the 50 most recent timestamp differences, as `block_sa` computes it in `int`, is not
-1, `blockchain_push` stamps the parent's difficulty plus 1 for `m < 10`, minus 1 for
`m > 20`, and unchanged otherwise. -/
theorem blockchain_push_adjustment (b : blockchain) (index timestamp : Int)
    (signature nonce : List Nat) (difficulty : Int) (data : List Nat)
    (pindex ptimestamp : Int) (psignature pnonce : List Nat) (pdifficulty : Int)
    (pparent : block) (pdata : List Nat) (m : Int)
    (hidx : (50 : Int) ∣ index)
    (hanc : 50 ≤ ancestors (.mk index timestamp signature nonce difficulty
      (.mk pindex ptimestamp psignature pnonce pdifficulty pparent pdata) data))
    (hm : m = Int.tdiv (wrap32 (diffSum 50 (.mk index timestamp signature nonce difficulty
      (.mk pindex ptimestamp psignature pnonce pdifficulty pparent pdata) data) * 10)) 50)
    (hne : m ≠ -1) :
    blockchain_push b (.mk index timestamp signature nonce difficulty
        (.mk pindex ptimestamp psignature pnonce pdifficulty pparent pdata) data) =
      some (0, ⟨.mk index timestamp signature nonce
        (if m < 10 then pdifficulty + 1 else if m > 20 then pdifficulty - 1 else pdifficulty)
        (.mk pindex ptimestamp psignature pnonce pdifficulty pparent pdata) data⟩) := by
  have hsa := (block_sa_cases 50 (by decide) 10 _ (by simp)).2 hanc
  rw [show (50 : Int).toNat = 50 from rfl, ← hm] at hsa
  have hmod : ¬ (Int.tmod index DIFFICULTY_ADJUSTMENT_PERIODS ≠ 0) := by
    have := Int.tmod_eq_zero_of_dvd hidx
    simpa [DIFFICULTY_ADJUSTMENT_PERIODS] using this
  simp only [blockchain_push]
  rw [if_neg hmod, show DIFFICULTY_ADJUSTMENT_PERIODS = 50 from rfl, hsa]
  simp [hne, SECONDS_INCREASE, SECONDS_DECREASE]

set_option maxRecDepth 100000 in
/-- C7, at a failing input. The chain has 51 blocks, index 0 to 50; the genesis block
has timestamp 1005 and all later blocks timestamp 1000 (the clock was set back). The
block of index 50 has 50 ancestors, the sum of its 50 timestamp differences is -5 and
the scaled mean `10 * (-5) / 50` is -1, below 10. `block_sa` returns that -1 and
`blockchain_push` takes it for "not enough periods": it stamps the parent's difficulty
16, not 17. -/
theorem blockchain_push_mean_minus_one :
    ancestors (chainOf tsClockSetBack 50) = 50 ∧
    diffSum 50 (chainOf tsClockSetBack 50) = -5 ∧
    block_sa (chainOf tsClockSetBack 50) 50 10 = some (-1) ∧
    difficultyOf (parentOf (chainOf tsClockSetBack 50)) = 16 ∧
    (blockchain_push ⟨chainOf tsClockSetBack 49⟩ (chainOf tsClockSetBack 50)).map
      (fun r => (r.1, difficultyOf r.2.block)) = some (0, 16) := by
  refine ⟨by decide, by decide, by decide, by decide, by decide⟩

set_option maxRecDepth 100000 in
/-- C9, the claim as stated fails. In the chain of 51 blocks with timestamps one second
apart, the block of index 50 has 50 ancestors and each of its 50 timestamp
differences is 1; `blockchain_push` stamps difficulty 16, its parent's difficulty, and
not 17. -/
theorem blockchain_push_one_second_not_increased :
    ancestors (chainOf tsEverySecond 50) = 50 ∧
    (∀ i, i < 50 →
      timestampOf (nthAncestor i (chainOf tsEverySecond 50)) -
        timestampOf (nthAncestor (i + 1) (chainOf tsEverySecond 50)) = 1) ∧
    difficultyOf (parentOf (chainOf tsEverySecond 50)) = 16 ∧
    (blockchain_push ⟨chainOf tsEverySecond 49⟩ (chainOf tsEverySecond 50)).map
      (fun r => difficultyOf r.2.block) = some 16 ∧
    (blockchain_push ⟨chainOf tsEverySecond 49⟩ (chainOf tsEverySecond 50)).map
      (fun r => difficultyOf r.2.block) ≠
        some (difficultyOf (parentOf (chainOf tsEverySecond 50)) + 1) := by
  refine ⟨by decide, by decide, by decide, by decide, by decide⟩

/-- C9, amended. For a block at index 50 with at least 50 ancestors whose 50 most recent
timestamp differences are exactly 1 second each, `blockchain_push` returns 0 and
stamps the difficulty of the parent, unchanged: the scaled mean is 10, which is not
below the threshold 10. -/
theorem blockchain_push_one_second_spacing (b : blockchain) (timestamp : Int)
    (signature nonce : List Nat) (difficulty : Int) (parent : block) (data : List Nat)
    (hanc : 50 ≤ ancestors (.mk 50 timestamp signature nonce difficulty parent data))
    (hspace : ∀ i, i < 50 →
      timestampOf (nthAncestor i (.mk 50 timestamp signature nonce difficulty parent data)) -
        timestampOf
          (nthAncestor (i + 1) (.mk 50 timestamp signature nonce difficulty parent data)) = 1) :
    blockchain_push b (.mk 50 timestamp signature nonce difficulty parent data) =
      some (0, ⟨.mk 50 timestamp signature nonce (difficultyOf parent) parent data⟩) := by
  have hsum := diffSum_of_spacing 1 50 _ hspace
  have hsa := (block_sa_cases 50 (by decide) 10
    (.mk 50 timestamp signature nonce difficulty parent data) (by simp)).2 hanc
  rw [show (50 : Int).toNat = 50 from rfl, hsum] at hsa
  have htd : block_sa (.mk 50 timestamp signature nonce difficulty parent data)
      DIFFICULTY_ADJUSTMENT_PERIODS 10 = some 10 := by
    rw [show DIFFICULTY_ADJUSTMENT_PERIODS = 50 from rfl, hsa]
    decide
  match parent, hanc, htd with
  | .NULL, hanc, _ => simp [ancestors, depth] at hanc
  | .mk pi pt ps pn pd pp pdata, _, htd =>
    have hmod : ¬ (Int.tmod 50 DIFFICULTY_ADJUSTMENT_PERIODS ≠ 0) := by decide
    simp only [blockchain_push]
    rw [if_neg hmod, htd]
    simp [difficultyOf, SECONDS_INCREASE, SECONDS_DECREASE]

/-- The chain of 51 blocks with timestamps one second apart: its block of index 50
meets the hypotheses, and `blockchain_push` stamps its parent's difficulty. -/
theorem blockchain_push_one_second_spacing_witness :
    50 ≤ ancestors
      (.mk 50 (tsEverySecond 50) digestA nonceA 16 (chainOf tsEverySecond 49) testPayload) ∧
    (∀ i, i < 50 →
      timestampOf (nthAncestor i
          (.mk 50 (tsEverySecond 50) digestA nonceA 16 (chainOf tsEverySecond 49) testPayload)) -
        timestampOf (nthAncestor (i + 1)
          (.mk 50 (tsEverySecond 50) digestA nonceA 16 (chainOf tsEverySecond 49) testPayload))
        = 1) ∧
    blockchain_push ⟨chainOf tsEverySecond 49⟩
        (.mk 50 (tsEverySecond 50) digestA nonceA 16 (chainOf tsEverySecond 49) testPayload) =
      some (0, ⟨.mk 50 (tsEverySecond 50) digestA nonceA
        (difficultyOf (chainOf tsEverySecond 49)) (chainOf tsEverySecond 49) testPayload⟩) :=
  ⟨by decide, by decide,
    blockchain_push_one_second_spacing ⟨chainOf tsEverySecond 49⟩ (tsEverySecond 50) digestA
      nonceA 16 (chainOf tsEverySecond 49) testPayload (by decide) (by decide)⟩

/-! ## Pushing a block -/

theorem blockchain_push_some (b : blockchain) (index timestamp : Int)
    (signature nonce : List Nat) (difficulty : Int) (parent : block) (data : List Nat) :
    ∃ d : Int,
      blockchain_push b (.mk index timestamp signature nonce difficulty parent data) =
        some (0, ⟨.mk index timestamp signature nonce d parent data⟩) ∧
      (parent = .NULL → d = 16) ∧
      (parent ≠ .NULL → Int.tmod index 50 ≠ 0 → d = difficultyOf parent) := by
  match parent with
  | .NULL =>
    exact ⟨16, by simp [blockchain_push, INITIAL_DIFFICULTY], fun _ => rfl,
      fun h => absurd rfl h⟩
  | .mk pindex ptimestamp psignature pnonce pdifficulty pparent pdata =>
    by_cases hmod : Int.tmod index DIFFICULTY_ADJUSTMENT_PERIODS ≠ 0
    · refine ⟨pdifficulty, ?_, by simp, fun _ _ => rfl⟩
      simp only [blockchain_push]
      rw [if_pos hmod]
    · obtain ⟨td, htd⟩ := block_sa_isSome DIFFICULTY_ADJUSTMENT_PERIODS (by decide) 10
        (.mk index timestamp signature nonce difficulty
          (.mk pindex ptimestamp psignature pnonce pdifficulty pparent pdata) data) (by simp)
      refine ⟨if td = -1 then pdifficulty
          else if td < SECONDS_INCREASE then pdifficulty + 1
          else if td > SECONDS_DECREASE then pdifficulty - 1
          else pdifficulty, ?_, by simp, fun _ h => absurd h hmod⟩
      simp only [blockchain_push]
      rw [if_neg hmod, htd]

/-- C14. For every chain and every element, `blockchain_push` returns 0 and the head of
the chain afterwards is the element with its fields `index`, `timestamp`,
`signature`, `nonce`, `parent` and `data` as they were, the parent with all its
ancestors included; only `difficulty` is written. No validity check is made: a
block as `create_block` returns it, which `block_verify` rejects, is pushed all the
same. -/
theorem blockchain_push_frame (b : blockchain) :
    (∀ (index timestamp : Int) (signature nonce : List Nat) (difficulty : Int) (parent : block)
        (data : List Nat),
      ∃ d : Int,
        blockchain_push b (.mk index timestamp signature nonce difficulty parent data) =
          some (0, ⟨.mk index timestamp signature nonce d parent data⟩)) ∧
    (∀ (char_signed : Bool) (heap : Nat → Nat) (signature0 nonce0 : List Nat)
        (difficulty0 now : Int) (data : List Nat),
      block_verify char_signed heap b
          (create_block signature0 nonce0 difficulty0 now b.block data) = some (-1) ∧
      ∃ c, blockchain_push b (create_block signature0 nonce0 difficulty0 now b.block data) =
        some (0, c)) := by
  constructor
  · intro index timestamp signature nonce difficulty parent data
    obtain ⟨d, hd, _⟩ :=
      blockchain_push_some b index timestamp signature nonce difficulty parent data
    exact ⟨d, hd⟩
  · intro char_signed heap signature0 nonce0 difficulty0 now data
    refine ⟨by simp [block_verify, create_block], ?_⟩
    obtain ⟨d, hd, _⟩ := blockchain_push_some b
      (match b.block with
        | .NULL => 0
        | .mk pindex _ _ _ _ _ _ => pindex + 1)
      now signature0 (0 :: nonce0.drop 1) difficulty0 b.block (data.takeWhile (· ≠ 0))
    exact ⟨_, hd⟩

/-! ## The genesis block -/

theorem cstr_takeWhile (l : List Nat) :
    cstr (l.takeWhile (· ≠ 0) ++ [0]) = some (l.takeWhile (· ≠ 0)) := by
  induction l with
  | nil => rfl
  | cons x rest ih =>
    by_cases hx : x = 0
    · rw [List.takeWhile_cons_of_neg (by simp [hx])]
      rfl
    · rw [List.takeWhile_cons_of_pos (by simp [hx]), List.cons_append, cstr, if_neg hx, ih]
      rfl

theorem takeWhile_of_no_zero (l : List Nat) (h : ∀ x ∈ l, x ≠ 0) :
    l.takeWhile (· ≠ 0) = l := by
  rw [List.takeWhile_eq_self_iff]
  intro x hx
  simpa using h x hx

/-- C11. For every payload `p`, the genesis block built by `create_block(NULL, p)`,
`block_sign_genesis` and `blockchain_push` is the head of the chain after the push; it
has index 0, no parent, difficulty 16, and its commitment is the SHA-256 of the
payload bytes alone (the bytes of `p` up to its end as a C string, which are all of
`p` when `p` holds no zero byte). -/
theorem genesis_block (c0 : blockchain) (signature0 nonce0 : List Nat)
    (difficulty0 now : Int) (p : List Nat) :
    (block_sign_genesis (create_block signature0 nonce0 difficulty0 now .NULL p)).bind
        (fun r => blockchain_push c0 r.2) =
      some (0, ⟨.mk 0 now (SHA256 (p.takeWhile (· ≠ 0))) (0 :: nonce0.drop 1) 16 .NULL
        (p.takeWhile (· ≠ 0))⟩) ∧
    ((∀ x ∈ p, x ≠ 0) → p.takeWhile (· ≠ 0) = p) := by
  refine ⟨?_, takeWhile_of_no_zero p⟩
  simp only [block_sign_genesis, create_block]
  rw [cstr_takeWhile]
  rfl

/-! ## The invariant of a built chain -/

theorem Linked_parentOf (b : block) (h : Linked b) : Linked (parentOf b) := by
  match b, h with
  | .NULL, _ => simp [parentOf, Linked]
  | .mk _ _ _ _ _ parent _, h => exact h.2.2

theorem Linked_nthAncestor (k : Nat) : ∀ b : block, Linked b → Linked (nthAncestor k b) := by
  induction k with
  | zero => intro b h; exact h
  | succ k ih => intro b h; exact ih (parentOf b) (Linked_parentOf b h)

theorem Linked_facts (a : block) (hl : Linked a) (hne : a ≠ .NULL) :
    indexOf a = ancestors a ∧
    (parentOf a ≠ .NULL → indexOf a = indexOf (parentOf a) + 1) ∧
    (parentOf a = .NULL → indexOf a = 0) ∧
    (indexOf a ≤ 49 → difficultyOf a = 16) := by
  match a, hl, hne with
  | .NULL, _, hne => exact absurd rfl hne
  | .mk index _ _ _ difficulty .NULL _, hl, _ =>
    obtain ⟨hi, hd, _⟩ := hl
    simp only [depth] at hi hd
    refine ⟨by simp [indexOf, ancestors, depth, hi], fun h => absurd rfl h,
      fun _ => by simp [indexOf, hi], fun _ => ?_⟩
    simp only [difficultyOf]
    exact hd (by omega)
  | .mk index _ _ _ difficulty (.mk pindex pt ps pn pd pp pdata) _, hl, _ =>
    obtain ⟨hi, hd, hp⟩ := hl
    obtain ⟨hpi, _, _⟩ := hp
    simp only [depth] at hi hd
    refine ⟨by simp [indexOf, ancestors, depth, hi], fun _ => ?_,
      fun h => by simp [parentOf] at h, fun h => ?_⟩
    · simp only [indexOf, parentOf, hi, hpi]
      push_cast
      ring
    · simp only [indexOf] at h
      simp only [difficultyOf]
      exact hd (by omega)

theorem push_genesis_linked (c0 : blockchain) (g : Step) :
    ∃ c, blockchain_push c0 (candidate .NULL g) = some (0, c) ∧ Linked c.block ∧
      c.block ≠ .NULL := by
  refine ⟨⟨.mk 0 g.now g.signature g.nonce 16 .NULL (g.data.takeWhile (· ≠ 0))⟩, rfl, ?_,
    by simp⟩
  simp [Linked, depth]

theorem push_candidate_linked (c : blockchain) (s : Step) (hl : Linked c.block)
    (hne : c.block ≠ .NULL) :
    ∃ c', blockchain_push c (candidate c.block s) = some (0, c') ∧ Linked c'.block ∧
      c'.block ≠ .NULL := by
  match hc : c.block, hl, hne with
  | .NULL, _, hne => exact absurd rfl hne
  | .mk hindex ht hs hn hd hp hdata, hl, _ =>
    obtain ⟨d, hpush, _, hdiff⟩ := blockchain_push_some c (hindex + 1) s.now s.signature s.nonce
      s.difficulty0 (.mk hindex ht hs hn hd hp hdata) (s.data.takeWhile (· ≠ 0))
    refine ⟨_, hpush, ?_, by simp⟩
    obtain ⟨hi, hd16, hlp⟩ := hl
    refine ⟨by simp only [depth, hi]; push_cast; ring, fun hle => ?_, hi, hd16, hlp⟩
    simp only [depth] at hle
    have hmod : Int.tmod (hindex + 1) 50 ≠ 0 := by
      rw [Int.tmod_eq_emod (by omega) (by decide)]
      omega
    rw [hdiff (by simp) hmod]
    simp only [difficultyOf]
    exact hd16 (by omega)

theorem build_linked (steps : List Step) :
    ∀ c : blockchain, Linked c.block → c.block ≠ .NULL →
    ∃ c', build c steps = some c' ∧ Linked c'.block ∧ c'.block ≠ .NULL := by
  induction steps with
  | nil => intro c hl hne; exact ⟨c, rfl, hl, hne⟩
  | cons s rest ih =>
    intro c hl hne
    obtain ⟨c1, hpush, hl1, hne1⟩ := push_candidate_linked c s hl hne
    obtain ⟨c2, hbuild, hl2, hne2⟩ := ih c1 hl1 hne1
    exact ⟨c2, by simp only [build, hpush, hbuild], hl2, hne2⟩

theorem buildChain_linked (c0 : blockchain) (g : Step) (steps : List Step) :
    ∃ c, buildChain c0 g steps = some c ∧ Linked c.block ∧ c.block ≠ .NULL := by
  obtain ⟨c1, hpush, hl1, hne1⟩ := push_genesis_linked c0 g
  obtain ⟨c2, hbuild, hl2, hne2⟩ := build_linked steps c1 hl1 hne1
  exact ⟨c2, by simp only [buildChain, hpush, hbuild], hl2, hne2⟩

/-- C12. Every chain built from a genesis block by creating blocks on the current head
with `create_block` and admitting them with `blockchain_push` exists (no step fails),
and every block of it with index 1 to 49 has difficulty 16, whatever the payloads
and the timestamps. -/
theorem built_chain_difficulty_16 (c0 : blockchain) (g : Step) (steps : List Step) :
    ∃ c, buildChain c0 g steps = some c ∧
      ∀ k, nthAncestor k c.block ≠ .NULL →
        1 ≤ indexOf (nthAncestor k c.block) → indexOf (nthAncestor k c.block) ≤ 49 →
        difficultyOf (nthAncestor k c.block) = 16 := by
  obtain ⟨c, hc, hl, _⟩ := buildChain_linked c0 g steps
  refine ⟨c, hc, fun k hk _ h49 => ?_⟩
  exact (Linked_facts _ (Linked_nthAncestor k c.block hl) hk).2.2.2 h49

/-- C13. Every chain built from a genesis block by creating blocks on the current head
with `create_block` and admitting them with `blockchain_push` exists, and every block
reachable from its head has index `parent.index + 1` when it has a parent and index
0 when it has none; its index is the number of its ancestors. -/
theorem built_chain_index (c0 : blockchain) (g : Step) (steps : List Step) :
    ∃ c, buildChain c0 g steps = some c ∧
      ∀ k, nthAncestor k c.block ≠ .NULL →
        (parentOf (nthAncestor k c.block) ≠ .NULL →
          indexOf (nthAncestor k c.block) = indexOf (parentOf (nthAncestor k c.block)) + 1) ∧
        (parentOf (nthAncestor k c.block) = .NULL → indexOf (nthAncestor k c.block) = 0) ∧
        indexOf (nthAncestor k c.block) = ancestors (nthAncestor k c.block) := by
  obtain ⟨c, hc, hl, _⟩ := buildChain_linked c0 g steps
  refine ⟨c, hc, fun k hk => ?_⟩
  obtain ⟨h1, h2, h3, _⟩ := Linked_facts _ (Linked_nthAncestor k c.block hl) hk
  exact ⟨h2, h3, h1⟩

set_option maxRecDepth 100000 in
/-- C15, at a failing input. The payload `"Another Test Block"`, the commitment of the
genesis block as parent commitment and the nonce `nonceC` are the same in two calls
of `block_gen_sha256`; the buffer `malloc` returns holds `fc 00 00 00 …` in the first
call and `6a 44 00 00 …` in the second. The two commitments written differ: the 31
bytes of the buffer after the string's terminating zero byte are hashed as found. -/
theorem block_gen_sha256_depends_on_buffer :
    block_gen_sha256 heapSign (testPayload ++ [0]) (genesisDigest ++ List.replicate 33 0)
      nonceC = some digestC ∧
    block_gen_sha256 heapVerify (testPayload ++ [0]) (genesisDigest ++ List.replicate 33 0)
      nonceC = some digestC_verify ∧
    digestC ≠ digestC_verify := by
  refine ⟨by decide, by decide, by decide⟩

theorem cstr_append_zero (pre t : List Nat) (hpre : ∀ x ∈ pre, x ≠ 0) :
    cstr (pre ++ 0 :: t) = some pre := by
  induction pre with
  | nil => rfl
  | cons x rest ih =>
    have hx : x ≠ 0 := hpre x (by simp)
    rw [List.cons_append, cstr, if_neg hx, ih (fun y hy => hpre y (by simp [hy]))]
    rfl

/-- C16. For every payload and nonce (strings `d` and `n` that end in their memory
regions, the nonce of at most 64 bytes): when the parent commitment starts with a
zero byte, the buffer `block_gen_sha256` hashes is `d`, `n`, a zero byte and what the
buffer held before, whatever the bytes of the parent commitment after the first; so
the buffer and the digest are the same for any two such parents. More generally the
buffer does not depend on the bytes of the parent commitment after its first zero
byte. -/
theorem block_gen_sha256_ignores_parent_after_zero (heap : Nat → Nat)
    (data nonce d n : List Nat) (hd : cstr data = some d) (hn : cstr nonce = some n)
    (hlen : n.length ≤ 64) :
    (∀ t : List Nat,
      block_gen_sha256_toSign heap data (0 :: t) nonce =
        some (d ++ n ++ [0] ++
          (List.range (64 - n.length)).map fun j => heap (d.length + n.length + 1 + j) % 256)) ∧
    (∀ t1 t2 : List Nat,
      block_gen_sha256 heap data (0 :: t1) nonce = block_gen_sha256 heap data (0 :: t2) nonce) ∧
    (∀ pre t1 t2 : List Nat, (∀ x ∈ pre, x ≠ 0) →
      block_gen_sha256_toSign heap data (pre ++ 0 :: t1) nonce =
        block_gen_sha256_toSign heap data (pre ++ 0 :: t2) nonce) := by
  have h1 : ∀ t : List Nat,
      block_gen_sha256_toSign heap data (0 :: t) nonce =
        some (d ++ n ++ [0] ++
          (List.range (64 - n.length)).map fun j =>
            heap (d.length + n.length + 1 + j) % 256) := by
    intro t
    have hp : cstr (0 :: t) = some [] := rfl
    simp only [block_gen_sha256_toSign, hd, hn, hp, SHA256_DIGEST_LENGTH, List.append_nil,
      List.length_append]
    rw [if_pos (by omega)]
    have hk : d.length + 32 + 32 + 1 - (d.length + n.length + 1) = 64 - n.length := by omega
    rw [hk]
  refine ⟨h1, fun t1 t2 => ?_, fun pre t1 t2 hpre => ?_⟩
  · simp only [block_gen_sha256, h1]
  · simp only [block_gen_sha256_toSign, cstr_append_zero pre t1 hpre,
      cstr_append_zero pre t2 hpre]

/-- The payload `"Another Test Block"` and the nonce `nonceB`, whose string is
`8e 39 01`: the hypotheses hold, and the parents `digestA` and `digestB`, which both
start with a zero byte, give the same digest. -/
theorem block_gen_sha256_ignores_parent_after_zero_witness :
    cstr (testPayload ++ [0]) = some testPayload ∧ cstr nonceB = some [142, 57, 1] ∧
    [142, 57, 1].length ≤ 64 ∧
    block_gen_sha256 zeroHeap (testPayload ++ [0]) (0 :: (digestA.drop 1 ++ nonceA)) nonceB =
      block_gen_sha256 zeroHeap (testPayload ++ [0]) (0 :: (digestB.drop 1 ++ nonceB)) nonceB :=
  ⟨by decide, by decide, by decide,
    (block_gen_sha256_ignores_parent_after_zero zeroHeap (testPayload ++ [0]) nonceB
      testPayload [142, 57, 1] (by decide) (by decide) (by decide)).2.1
      (digestA.drop 1 ++ nonceA) (digestB.drop 1 ++ nonceB)⟩

/-! ## Monotonicity of the difficulty test -/

theorem difficulty_test_loop_nonpos (sgn : Bool) (hs : List Nat) (d : Int) (hd : d ≤ 0) :
    difficulty_test_loop sgn hs d = some 0 := by
  have h : ¬ d > 0 := by omega
  cases hs <;> simp [difficulty_test_loop, h]

/-- C17. For a 32-byte hash and `d' ≤ d ≤ 256`: when `difficulty_test(hash, d)` returns 0,
so does `difficulty_test(hash, d')`; and for every `d' ≤ 0`, the negative difficulties
included, `difficulty_test` returns 0 on every hash. -/
theorem difficulty_test_monotone (char_signed : Bool) (hash : List Nat) (d d' : Int)
    (hlen : hash.length = 32) (hbytes : ∀ x ∈ hash, x < 256) (hle : d' ≤ d)
    (h256 : d ≤ 256) :
    (difficulty_test char_signed hash d = some 0 →
      difficulty_test char_signed hash d' = some 0) ∧
    (∀ (h : List Nat) (e : Int), e ≤ 0 → difficulty_test char_signed h e = some 0) := by
  refine ⟨fun h => ?_, fun h e he => difficulty_test_loop_nonpos char_signed h e he⟩
  unfold difficulty_test at h ⊢
  have hd : d ≤ 8 * (hash.length : Int) := by rw [hlen]; omega
  have hd' : d' ≤ 8 * (hash.length : Int) := by rw [hlen]; omega
  rcases difficulty_test_loop_spec char_signed hash hbytes d hd with ⟨_, hz⟩ | ⟨h1, _⟩
  · rcases difficulty_test_loop_spec char_signed hash hbytes d' hd' with ⟨h0, _⟩ | ⟨_, hnz⟩
    · exact h0
    · exact absurd (fun j hj => hz j (by omega)) hnz
  · rw [h1] at h
    exact absurd h (by decide)

/-- The hash `00 1f ff …` passes at difficulty 11, hence at difficulty 3. -/
theorem difficulty_test_monotone_witness :
    (0 :: 31 :: List.replicate 30 255).length = 32 ∧
    (∀ x ∈ 0 :: 31 :: List.replicate 30 255, x < 256) ∧
    (3 : Int) ≤ 11 ∧ (11 : Int) ≤ 256 ∧
    ((difficulty_test false (0 :: 31 :: List.replicate 30 255) 11 = some 0 →
      difficulty_test false (0 :: 31 :: List.replicate 30 255) 3 = some 0) ∧
    (∀ (h : List Nat) (e : Int), e ≤ 0 → difficulty_test false h e = some 0)) :=
  ⟨by decide, by decide, by decide, by decide,
    difficulty_test_monotone false (0 :: 31 :: List.replicate 30 255) 11 3
      (by decide) (by decide) (by decide) (by decide)⟩

end EduChain
